import Mathlib

/-!
Shallow embedding of `src/Org_Hierarchy/get_org_hierarchy_solo.py` (the
organizational-hierarchy builder), together with theorems settling the
specification claims about it.

Strings are modelled by Lean `String` (a list of unicode code points, as in
Python); Python `str.lower()` is modelled character-wise by `Char.toLower`
(ASCII case folding, which is all the configured patterns exercise);
Python `pat in s` substring tests and `s.startswith(p)` are modelled by
executable list functions on `String.data`.  Python dictionaries keyed by
user id are modelled as functions `String → Option UserRecord`
(respectively `String → List String` for the `defaultdict(list)`), built by
the same left-to-right folds the source performs.
-/

namespace OrgHierarchy

/-- One raw directory record, with the fields the script selects
(`id,displayName,userPrincipalName,mail,jobTitle,department` plus the
expanded `manager($select=id)` reference).  A missing string field is
modelled as `""` (Python code only ever reads them with `.get(..., '')`
or truthiness tests); a missing manager reference is `none`. -/
structure UserRecord where
  id : String
  displayName : String
  userPrincipalName : String
  mail : String
  jobTitle : String
  department : String
  manager : Option String
deriving DecidableEq

/-- Python `s.lower()`, character-wise ASCII case folding. -/
def lowerStr (s : String) : String := String.mk (s.data.map Char.toLower)

/-- Python `pat in hay` (substring containment) on character lists. -/
def substrB (pat : List Char) : List Char → Bool
  | [] => pat.isPrefixOf []
  | c :: t => pat.isPrefixOf (c :: t) || substrB pat t

/-- Python `pat in hay` on strings. -/
def containsSub (hay pat : String) : Bool := substrB pat.data hay.data

/-- Python `s.startswith(pre)`. -/
def startsWithStr (s pre : String) : Bool := pre.data.isPrefixOf s.data

/-- The `excluded_patterns` list of `main` (source lines 229-237). -/
def excludedPatterns : List String :=
  ["#EXT#", "@avetta1.onmicrosoft.com", "admin@", "noreply", "accounts@",
   "adm.", "abuse@"]

/-- The local filtering loop of `main` (source lines 239-251): skip a user
when mail or job title is falsy; skip when any excluded pattern occurs in
the lowercased principal name or the lowercased display name starts with
`adm`; otherwise append to the output list. -/
def filterUsers (users : List UserRecord) : List UserRecord :=
  users.foldl (fun acc u =>
    if u.mail = "" ∨ u.jobTitle = "" then acc
    else if (excludedPatterns.any fun p =>
              containsSub (lowerStr u.userPrincipalName) p)
           || startsWithStr (lowerStr u.displayName) "adm" then acc
    else acc ++ [u]) []

/-- The record-filter contract as the specification states it: keep exactly
the records with non-empty mail, non-empty job title, whose lowercase
principal name contains none of the excluded substrings and whose lowercase
display name does not start with the excluded prefix `adm`. -/
def keepSpec (u : UserRecord) : Bool :=
  (u.mail != "") && (u.jobTitle != "") &&
  !(excludedPatterns.any fun p => containsSub (lowerStr u.userPrincipalName) p) &&
  !(startsWithStr (lowerStr u.displayName) "adm")

theorem filterStep_eq (acc : List UserRecord) (u : UserRecord) :
    (if u.mail = "" ∨ u.jobTitle = "" then acc
     else if (excludedPatterns.any fun p =>
               containsSub (lowerStr u.userPrincipalName) p)
            || startsWithStr (lowerStr u.displayName) "adm" then acc
     else acc ++ [u]) = if keepSpec u then acc ++ [u] else acc := by
  by_cases h1 : u.mail = "" ∨ u.jobTitle = ""
  · rw [if_pos h1]
    have hk : keepSpec u = false := by
      rcases h1 with h | h <;> simp [keepSpec, h]
    rw [hk]; simp
  · rw [if_neg h1]
    push_neg at h1
    by_cases h2 : ((excludedPatterns.any fun p =>
          containsSub (lowerStr u.userPrincipalName) p)
        || startsWithStr (lowerStr u.displayName) "adm") = true
    · rw [if_pos h2]
      have hk : keepSpec u = false := by
        rcases Bool.or_eq_true_iff.mp h2 with h | h <;> simp [keepSpec, h]
      rw [hk]; simp
    · rw [if_neg h2]
      have hk : keepSpec u = true := by
        simp only [Bool.or_eq_true_iff, not_or, Bool.not_eq_true] at h2
        simp [keepSpec, h1.1, h1.2, h2.1, h2.2]
      rw [hk]; simp

theorem filterUsers_foldl (users : List UserRecord) (acc : List UserRecord) :
    users.foldl (fun acc u =>
      if u.mail = "" ∨ u.jobTitle = "" then acc
      else if (excludedPatterns.any fun p =>
                containsSub (lowerStr u.userPrincipalName) p)
             || startsWithStr (lowerStr u.displayName) "adm" then acc
      else acc ++ [u]) acc = acc ++ users.filter keepSpec := by
  induction users generalizing acc with
  | nil => simp
  | cons u us ih =>
    rw [List.foldl_cons, filterStep_eq, List.filter_cons]
    cases hk : keepSpec u with
    | false => rw [ih]; simp [hk]
    | true => rw [ih]; simp [hk]

/-- The loop `filterUsers` equals `List.filter keepSpec`. -/
theorem filterUsers_eq_filter (users : List UserRecord) :
    filterUsers users = users.filter keepSpec := by
  unfold filterUsers
  rw [filterUsers_foldl, List.nil_append]

/-- C4. -- The record filter returns exactly the subsequence (in input
order, `List.filter`) of the records with non-empty mail, non-empty job
title, no configured excluded substring occurring in the lowercase
principal name, and lowercase display name not starting with the
configured excluded prefix `adm`. -/
theorem c4_filter_exact (users : List UserRecord) :
    filterUsers users = users.filter keepSpec := filterUsers_eq_filter users

/-- The dictionary comprehension `users_by_id = {user['id']: user for user
in all_users}` of `main` (source line 257): a left-to-right fold in which a
later entry with the same id overwrites an earlier one. -/
def buildById (users : List UserRecord) : String → Option UserRecord :=
  users.foldl (fun m u => fun k => if k = u.id then some u else m k)
    (fun _ => none)

/-- The single loop of `main` (source lines 262-270) that fills
`reports_by_manager` (a `defaultdict(list)` receiving appends) and
`root_candidates`: a user with a manager reference resolving in
`users_by_id` is appended to that manager's report list; otherwise (no
manager reference, or an unresolvable one) the user is appended to the
root-candidate list. -/
def indexStep (usersById : String → Option UserRecord)
    (acc : (String → List String) × List UserRecord) (u : UserRecord) :
    (String → List String) × List UserRecord :=
  match u.manager with
  | some mid =>
    if (usersById mid).isSome then
      (fun k => if k = mid then acc.1 k ++ [u.id] else acc.1 k, acc.2)
    else (acc.1, acc.2 ++ [u])
  | none => (acc.1, acc.2 ++ [u])

def buildIndex (users : List UserRecord) (usersById : String → Option UserRecord) :
    (String → List String) × List UserRecord :=
  users.foldl (indexStep usersById) (fun _ => [], [])

/-- The `reports_by_manager` multimap built by `main`. -/
def reportsByManager (users : List UserRecord) : String → List String :=
  (buildIndex users (buildById users)).1

/-- The `root_candidates` list built by `main`. -/
def rootCandidates (users : List UserRecord) : List UserRecord :=
  (buildIndex users (buildById users)).2

theorem buildById_foldl (users : List UserRecord)
    (m : String → Option UserRecord) (k : String) :
    (users.foldl (fun m u => fun k => if k = u.id then some u else m k) m) k =
      match users.reverse.find? (fun u => u.id == k) with
      | some u => some u
      | none => m k := by
  induction users generalizing m with
  | nil => simp
  | cons u us ih =>
    rw [List.foldl_cons, ih, List.reverse_cons, List.find?_append]
    cases h : us.reverse.find? (fun u => u.id == k) with
    | some v => simp [h, Option.orElse]
    | none =>
      simp only [h, Option.none_orElse, List.find?_singleton]
      by_cases hk : u.id = k
      · simp [hk]
      · have : (u.id == k) = false := by simpa using hk
        simp [this, Ne.symm hk]

/-- The mapping `buildById` keeps, for each id, the **last** record in input order
carrying that id (a Python dict comprehension overwrites earlier
bindings). -/
theorem buildById_last_wins (users : List UserRecord) (k : String) :
    buildById users k = users.reverse.find? (fun u => u.id == k) := by
  unfold buildById
  rw [buildById_foldl]
  cases h : users.reverse.find? (fun u => u.id == k) <;> simp [h]

theorem buildById_isSome_of_mem (users : List UserRecord) (u : UserRecord)
    (hu : u ∈ users) : (buildById users u.id).isSome := by
  rw [buildById_last_wins, List.find?_isSome]
  exact ⟨u, by simpa using hu, by simp⟩

theorem indexStep_roots (usersById : String → Option UserRecord)
    (acc : (String → List String) × List UserRecord) (u : UserRecord) :
    (indexStep usersById acc u).2 =
      match u.manager with
      | some mid => if (usersById mid).isSome then acc.2 else acc.2 ++ [u]
      | none => acc.2 ++ [u] := by
  unfold indexStep
  cases u.manager with
  | none => rfl
  | some mid => by_cases hs : (usersById mid).isSome <;> simp [hs]

theorem indexStep_reports (usersById : String → Option UserRecord)
    (acc : (String → List String) × List UserRecord) (u : UserRecord)
    (k : String) :
    (indexStep usersById acc u).1 k =
      match u.manager with
      | some mid =>
        if (usersById mid).isSome ∧ k = mid then acc.1 k ++ [u.id] else acc.1 k
      | none => acc.1 k := by
  unfold indexStep
  cases u.manager with
  | none => rfl
  | some mid =>
    by_cases hs : (usersById mid).isSome
    · by_cases hk : k = mid <;> simp [hs, hk]
    · simp [hs]

/-- Every id appended to a report list by the index loop is the id of a
user in the scanned list whose manager reference is the list's key and
resolves in `usersById`. -/
theorem mem_reports_foldl (usersById : String → Option UserRecord)
    (users : List UserRecord) :
    ∀ (acc : (String → List String) × List UserRecord) (k rid : String),
      rid ∈ (users.foldl (indexStep usersById) acc).1 k →
      rid ∈ acc.1 k ∨
        ∃ u ∈ users, u.id = rid ∧ u.manager = some k ∧ (usersById k).isSome := by
  induction users with
  | nil => intro acc k rid h; exact Or.inl h
  | cons u us ih =>
    intro acc k rid h
    rw [List.foldl_cons] at h
    rcases ih (indexStep usersById acc u) k rid h with h' | ⟨v, hv, hvr⟩
    · rw [indexStep_reports] at h'
      cases hm : u.manager with
      | none => rw [hm] at h'; exact Or.inl h'
      | some mid =>
        rw [hm] at h'
        dsimp only at h'
        by_cases hc : (usersById mid).isSome ∧ k = mid
        · rw [if_pos hc] at h'
          rcases List.mem_append.mp h' with h3 | h3
          · exact Or.inl h3
          · rcases hc with ⟨hs, hk⟩
            subst hk
            exact Or.inr ⟨u, List.mem_cons_self u us,
              (List.mem_singleton.mp h3).symm, hm, hs⟩
        · rw [if_neg hc] at h'
          exact Or.inl h'
    · exact Or.inr ⟨v, List.mem_cons_of_mem u hv, hvr⟩

/-- The root-candidate component of the index fold only grows. -/
theorem mem_roots_foldl_mono (usersById : String → Option UserRecord)
    (users : List UserRecord) :
    ∀ (acc : (String → List String) × List UserRecord) (v : UserRecord),
      v ∈ acc.2 → v ∈ (users.foldl (indexStep usersById) acc).2 := by
  induction users with
  | nil => intro acc v h; exact h
  | cons u us ih =>
    intro acc v h
    rw [List.foldl_cons]
    refine ih _ v ?_
    rw [indexStep_roots]
    cases u.manager with
    | none => exact List.mem_append_left _ h
    | some mid =>
      dsimp only
      by_cases hs : (usersById mid).isSome
      · rw [if_pos hs]; exact h
      · rw [if_neg hs]; exact List.mem_append_left _ h

/-- A scanned user whose manager reference is absent or does not resolve
lands in the root-candidate component of the index fold. -/
theorem mem_roots_foldl (usersById : String → Option UserRecord)
    (users : List UserRecord) :
    ∀ (acc : (String → List String) × List UserRecord) (u : UserRecord),
      u ∈ users → (∀ mid, u.manager = some mid → usersById mid = none) →
      u ∈ (users.foldl (indexStep usersById) acc).2 := by
  induction users with
  | nil => intro acc u h; exact absurd h (List.not_mem_nil u)
  | cons v us ih =>
    intro acc u hu horph
    rw [List.foldl_cons]
    rcases List.mem_cons.mp hu with rfl | hu'
    · refine mem_roots_foldl_mono usersById us _ u ?_
      rw [indexStep_roots]
      cases hm : u.manager with
      | none => exact List.mem_append_right _ (List.mem_singleton_self u)
      | some mid =>
        have hn : usersById mid = none := horph mid hm
        dsimp only
        rw [hn]
        simp
    · exact ih _ u hu' horph

/-- C6. -- Every id occurring in any value-sequence of
`reportsByManager` is a key of `byId` (its lookup succeeds): a report id
is only recorded for a user of the filtered set, and every such user's id
resolves in `users_by_id`. -/
theorem c6_reports_ids_resolve (users : List UserRecord) (k rid : String)
    (h : rid ∈ reportsByManager users k) : (buildById users rid).isSome := by
  unfold reportsByManager buildIndex at h
  rcases mem_reports_foldl (buildById users) users _ k rid h with h' | ⟨u, hu, hid, _⟩
  · exact absurd h' (List.not_mem_nil rid)
  · rw [← hid]
    exact buildById_isSome_of_mem users u hu

/-- C9. -- A filtered record whose manager reference is absent or does
not resolve in `byId` is classified as a root candidate, and (when ids are
unique, as the data model stipulates) its id never appears in any
value-sequence of `reportsByManager`. -/
theorem c9_orphan_is_root_candidate (users : List UserRecord) (u : UserRecord)
    (hmem : u ∈ users) (hnodup : (users.map (fun v => v.id)).Nodup)
    (horph : ∀ mid, u.manager = some mid → buildById users mid = none) :
    u ∈ rootCandidates users ∧ ∀ k, u.id ∉ reportsByManager users k := by
  constructor
  · unfold rootCandidates buildIndex
    exact mem_roots_foldl (buildById users) users _ u hmem horph
  · intro k hk
    unfold reportsByManager buildIndex at hk
    rcases mem_reports_foldl (buildById users) users _ k u.id hk with
      h' | ⟨v, hv, hid, hvm, hs⟩
    · exact absurd h' (List.not_mem_nil u.id)
    · have hvu : v = u := List.inj_on_of_nodup_map hnodup hv hmem hid
      subst hvu
      rw [horph k hvm] at hs
      exact absurd hs (by simp)

/-- Two raw records sharing id `5` (Scenario D), first in input order. -/
def dupFirst : UserRecord :=
  ⟨"5", "First Person", "first@x", "first@x", "Engineer", "", none⟩

/-- Two raw records sharing id `5` (Scenario D), second in input order. -/
def dupSecond : UserRecord :=
  ⟨"5", "Second Person", "second@x", "second@x", "Analyst", "", none⟩

/-- C2, counterexample. -- With two records sharing id `5`, `byId` maps
`5` to the second-encountered record, not the first: the dict
comprehension `{user['id']: user for user in all_users}` lets the last
occurrence overwrite earlier ones. -/
theorem c2_counterexample :
    buildById [dupFirst, dupSecond] "5" = some dupSecond ∧ dupSecond ≠ dupFirst := by
  constructor
  · rfl
  · decide

/-- C2, amended. -- After index building, `byId` maps each id to the
**latest** record in input order carrying that id (last seen wins; no
warning is recorded). -/
theorem c2_last_wins (users : List UserRecord) (k : String) :
    buildById users k = users.reverse.find? (fun u => u.id == k) :=
  buildById_last_wins users k

/-- A node of the output hierarchy, with exactly the fields the script
stores (source lines 171-181): the user's public fields, the list of
successfully built direct-report subtrees, and the two derived flags. -/
inductive HNode : Type where
  | mk (id displayName userPrincipalName mail jobTitle department : String)
       (directReports : List HNode) (hasManagerReports needsStandardList : Bool)

def HNode.directReports : HNode → List HNode
  | .mk _ _ _ _ _ _ r _ _ => r

def HNode.hasManagerReports : HNode → Bool
  | .mk _ _ _ _ _ _ _ h _ => h

def HNode.needsStandardList : HNode → Bool
  | .mk _ _ _ _ _ _ _ _ n => n

/-- One iteration of the `for report_id in direct_report_ids` loop of
`build_local_hierarchy` (source lines 163-169), parametrised by the
recursive call `b`.  The accumulator carries the `direct_reports` list and
the `has_manager_reports` flag; an accumulator or child result of `none`
means the recursion budget was exhausted (see `buildLocalHierarchy`), a
child result of `some none` is Python `None` and is skipped. -/
def childStep (b : String → Option (Option HNode))
    (acc : Option (List HNode × Bool)) (rid : String) :
    Option (List HNode × Bool) :=
  match acc with
  | none => none
  | some (children, flag) =>
    match b rid with
    | none => none
    | some none => some (children, flag)
    | some (some node) =>
      some (children ++ [node], flag || !node.directReports.isEmpty)

/-- Function `build_local_hierarchy` (source lines 148-183), made total with an
explicit recursion budget: the result is `none` when the budget runs out
(so `∀ fuel, ... = none` states that the Python recursion never returns),
`some none` when the Python function returns `None` (id not in
`users_by_id`), and `some (some node)` when it returns a node.  The
source keeps no record of the ids on the active recursion path. -/
def buildLocalHierarchy :
    Nat → String → (String → Option UserRecord) → (String → List String) →
    Option (Option HNode)
  | 0, _, _, _ => none
  | fuel+1, userId, usersById, reportsBy =>
    match usersById userId with
    | none => some none
    | some u =>
      match (reportsBy userId).foldl
          (childStep fun rid => buildLocalHierarchy fuel rid usersById reportsBy)
          (some ([], false)) with
      | none => none
      | some (children, flag) =>
        some (some (HNode.mk u.id u.displayName u.userPrincipalName u.mail
          u.jobTitle u.department children flag flag))

/-- Scenario E: user 1, whose manager is user 2. -/
def cycUser1 : UserRecord :=
  ⟨"1", "Cyc One", "one@x", "one@x", "Engineer", "", some "2"⟩

/-- Scenario E: user 2, whose manager is user 1 (closing the cycle). -/
def cycUser2 : UserRecord :=
  ⟨"2", "Cyc Two", "two@x", "two@x", "Engineer", "", some "1"⟩

/-- Scenario E input: manager chain 1→2→1. -/
def cycUsers : List UserRecord := [cycUser1, cycUser2]

/-- C1, code behaviour at the failing input. -- On the cyclic manager
multimap of Scenario E (1→2→1), `build_local_hierarchy` never returns, no
matter how large a recursion budget it is granted, starting from either
id: the source keeps no set of ids on the active recursion path, so the
recursion 1→2→1→2→… never bottoms out (in Python, a `RecursionError`
rather than the tree the claim describes). -/
theorem c1_cycle_never_terminates (fuel : Nat) :
    buildLocalHierarchy fuel "1" (buildById cycUsers) (reportsByManager cycUsers)
      = none ∧
    buildLocalHierarchy fuel "2" (buildById cycUsers) (reportsByManager cycUsers)
      = none := by
  have hb1 : buildById cycUsers "1" = some cycUser1 := rfl
  have hb2 : buildById cycUsers "2" = some cycUser2 := rfl
  have hr1 : reportsByManager cycUsers "1" = ["2"] := rfl
  have hr2 : reportsByManager cycUsers "2" = ["1"] := rfl
  induction fuel with
  | zero => exact ⟨rfl, rfl⟩
  | succ n ih =>
    constructor
    · rw [buildLocalHierarchy, hb1, hr1]
      dsimp only [List.foldl, childStep]
      rw [ih.2]
    · rw [buildLocalHierarchy, hb2, hr2]
      dsimp only [List.foldl, childStep]
      rw [ih.1]

theorem childFold_none (b : String → Option (Option HNode)) :
    ∀ rids : List String, rids.foldl (childStep b) none = none := by
  intro rids
  induction rids with
  | nil => rfl
  | cons rid rest ih => rw [List.foldl_cons]; exact ih

/-- The `has_manager_reports` flag threaded through the report loop equals
"some collected child has a non-empty report list". -/
theorem childFold_flag (b : String → Option (Option HNode)) :
    ∀ (rids : List String) (cs0 : List HNode) (f0 : Bool)
      (children : List HNode) (flag : Bool),
      rids.foldl (childStep b) (some (cs0, f0)) = some (children, flag) →
      f0 = cs0.any (fun c => !c.directReports.isEmpty) →
      flag = children.any (fun c => !c.directReports.isEmpty) := by
  intro rids
  induction rids with
  | nil =>
    intro cs0 f0 children flag h h0
    obtain ⟨rfl, rfl⟩ : cs0 = children ∧ f0 = flag := by
      simpa [Prod.ext_iff] using h
    exact h0
  | cons rid rest ih =>
    intro cs0 f0 children flag h h0
    rw [List.foldl_cons] at h
    cases hb : b rid with
    | none =>
      have hstep : childStep b (some (cs0, f0)) rid = none := by
        unfold childStep; rw [hb]
      rw [hstep, childFold_none] at h
      exact absurd h (by simp)
    | some o =>
      cases o with
      | none =>
        have hstep : childStep b (some (cs0, f0)) rid = some (cs0, f0) := by
          unfold childStep; rw [hb]
        rw [hstep] at h
        exact ih cs0 f0 children flag h h0
      | some node =>
        have hstep : childStep b (some (cs0, f0)) rid =
            some (cs0 ++ [node], f0 || !node.directReports.isEmpty) := by
          unfold childStep; rw [hb]
        rw [hstep] at h
        refine ih _ _ children flag h ?_
        rw [List.any_append, h0]
        simp

/-- C3. -- Whenever the hierarchy builder returns a node (at any
recursion depth — every node of the output tree is the value of such a
call), `hasManagerReports` is true iff the node has at least one direct
report and some direct report itself has a non-empty report list, and
`needsStandardList` coincides with `hasManagerReports`. -/
theorem c3_manager_flags (fuel : Nat) (uid : String)
    (usersById : String → Option UserRecord) (reportsBy : String → List String)
    (node : HNode)
    (h : buildLocalHierarchy fuel uid usersById reportsBy = some (some node)) :
    (node.hasManagerReports = true ↔
      node.directReports ≠ [] ∧ ∃ c ∈ node.directReports, c.directReports ≠ []) ∧
    node.needsStandardList = node.hasManagerReports := by
  cases fuel with
  | zero => exact absurd h (by simp [buildLocalHierarchy])
  | succ n =>
    rw [buildLocalHierarchy] at h
    cases hu : usersById uid with
    | none => rw [hu] at h; exact absurd h (by simp)
    | some u =>
      rw [hu] at h
      dsimp only at h
      cases hfold : (reportsBy uid).foldl
          (childStep fun rid => buildLocalHierarchy n rid usersById reportsBy)
          (some ([], false)) with
      | none => rw [hfold] at h; exact absurd h (by simp)
      | some cf =>
        obtain ⟨children, flag⟩ := cf
        rw [hfold] at h
        dsimp only at h
        have hnode : HNode.mk u.id u.displayName u.userPrincipalName u.mail
            u.jobTitle u.department children flag flag = node := by
          simpa using h
        have hflag : flag = children.any (fun c => !c.directReports.isEmpty) :=
          childFold_flag _ _ [] false children flag hfold (by simp)
        subst hnode
        constructor
        · rw [HNode.hasManagerReports, HNode.directReports, hflag]
          constructor
          · intro hx
            rcases List.any_eq_true.mp hx with ⟨c, hc, hcne⟩
            refine ⟨List.ne_nil_of_mem hc, c, hc, ?_⟩
            simpa using hcne
          · rintro ⟨-, c, hc, hcne⟩
            refine List.any_eq_true.mpr ⟨c, hc, ?_⟩
            simpa using hcne
        · rw [HNode.hasManagerReports, HNode.needsStandardList]

/-- Scenario A, record 1: the CEO, no manager. -/
def scenAUser1 : UserRecord := ⟨"1", "Alice", "a@x", "a@x", "CEO", "", none⟩

/-- Scenario A, record 2: VP Eng, managed by 1. -/
def scenAUser2 : UserRecord := ⟨"2", "Bob", "b@x", "b@x", "VP Eng", "", some "1"⟩

/-- Scenario A, record 3: Engineer, managed by 2. -/
def scenAUser3 : UserRecord := ⟨"3", "Carol", "c@x", "c@x", "Engineer", "", some "2"⟩

/-- Scenario A input set. -/
def scenAUsers : List UserRecord := [scenAUser1, scenAUser2, scenAUser3]

/-- The leaf node for id 3 the builder produces on Scenario A. -/
def scenANode3 : HNode :=
  .mk "3" "Carol" "c@x" "c@x" "Engineer" "" [] false false

/-- The node for id 2 the builder produces on Scenario A. -/
def scenANode2 : HNode :=
  .mk "2" "Bob" "b@x" "b@x" "VP Eng" "" [scenANode3] false false

/-- The root node for id 1 the builder produces on Scenario A. -/
def scenANode1 : HNode :=
  .mk "1" "Alice" "a@x" "a@x" "CEO" "" [scenANode2] true true

theorem scenA_build :
    buildLocalHierarchy 4 "1" (buildById scenAUsers) (reportsByManager scenAUsers)
      = some (some scenANode1) := rfl

/-- Witness for C3 at Scenario A's root node. -/
theorem c3_manager_flags_witness :
    (scenANode1.hasManagerReports = true ↔
      scenANode1.directReports ≠ [] ∧
        ∃ c ∈ scenANode1.directReports, c.directReports ≠ []) ∧
    scenANode1.needsStandardList = scenANode1.hasManagerReports :=
  c3_manager_flags 4 "1" (buildById scenAUsers) (reportsByManager scenAUsers)
    scenANode1 scenA_build

/-- Witness for C6 on Scenario A: id `2` occurs in the report list of
manager `1`, and it resolves in `byId`. -/
theorem c6_reports_ids_resolve_witness :
    ("2" ∈ reportsByManager scenAUsers "1") ∧
      (buildById scenAUsers "2").isSome := by
  have h : "2" ∈ reportsByManager scenAUsers "1" := by decide
  exact ⟨h, c6_reports_ids_resolve scenAUsers "1" "2" h⟩

/-- Scenario C style record: its manager id `9` resolves to nothing. -/
def orphanUser : UserRecord := ⟨"2", "Bob", "b@x", "b@x", "VP Eng", "", some "9"⟩

/-- Witness for C9: a record whose manager id does not resolve becomes a
root candidate and its id is in no report list. -/
theorem c9_orphan_is_root_candidate_witness :
    orphanUser ∈ rootCandidates [orphanUser] ∧
      ∀ k, orphanUser.id ∉ reportsByManager [orphanUser] k := by
  refine c9_orphan_is_root_candidate [orphanUser] orphanUser (by decide)
    (by decide) ?_
  intro mid hm
  have h9 : mid = "9" := (Option.some.inj hm.symm)
  subst h9
  rfl

mutual

/-- Function `count_managers_in_hierarchy` (source lines 330-341): a node with a
non-empty `directReports` list counts as a manager, and additionally as a
standard-list manager when its `needsStandardList` flag is set; the counts
of the direct-report subtrees are added. -/
def countManagersInHierarchy : HNode → Nat × Nat
  | .mk _ _ _ _ _ _ reports _ nsl =>
    let rest := countManagersList reports
    ((if reports.isEmpty then 0 else 1) + rest.1,
     (if !reports.isEmpty && nsl then 1 else 0) + rest.2)

def countManagersList : List HNode → Nat × Nat
  | [] => (0, 0)
  | n :: ns =>
    let a := countManagersInHierarchy n
    let b := countManagersList ns
    (a.1 + b.1, a.2 + b.2)

end

mutual

/-- The list of all nodes of a tree (the node itself and, recursively,
every node of every direct-report subtree). -/
def nodesOf : HNode → List HNode
  | .mk i d upn m j dep reports h n =>
    HNode.mk i d upn m j dep reports h n :: nodesList reports

def nodesList : List HNode → List HNode
  | [] => []
  | n :: ns => nodesOf n ++ nodesList ns

end

mutual

theorem countManagersInHierarchy_spec (n : HNode) :
    countManagersInHierarchy n =
      ((nodesOf n).countP (fun m => !m.directReports.isEmpty),
       (nodesOf n).countP
         (fun m => !m.directReports.isEmpty && m.needsStandardList)) := by
  cases n with
  | mk i d upn m j dep reports h nsl =>
    simp only [countManagersInHierarchy, nodesOf, List.countP_cons,
      HNode.directReports, HNode.needsStandardList,
      countManagersList_spec reports]
    cases he : reports.isEmpty <;> cases nsl <;>
      simp [Prod.ext_iff] <;> omega

theorem countManagersList_spec (l : List HNode) :
    countManagersList l =
      ((nodesList l).countP (fun m => !m.directReports.isEmpty),
       (nodesList l).countP
         (fun m => !m.directReports.isEmpty && m.needsStandardList)) := by
  cases l with
  | nil => rfl
  | cons n ns =>
    simp only [countManagersList, nodesList, List.countP_append,
      countManagersInHierarchy_spec n, countManagersList_spec ns]

end

/-- C10. -- The summary aggregator returns exactly (number of nodes of
the tree with at least one direct report, number of such nodes whose
`needsStandardList` flag is set); on Scenario A's tree 1→[2→[3]] (the
tree `scenA_build` shows the builder produces) it returns (2, 1). -/
theorem c10_summary_counts (n : HNode) :
    countManagersInHierarchy n =
      ((nodesOf n).countP (fun m => !m.directReports.isEmpty),
       (nodesOf n).countP
         (fun m => !m.directReports.isEmpty && m.needsStandardList)) ∧
    countManagersInHierarchy scenANode1 = (2, 1) :=
  ⟨countManagersInHierarchy_spec n, rfl⟩

/-- List `executive_titles_highest` (source line 289). -/
def executiveTitlesHighest : List String := ["ceo", "chief executive", "president"]

/-- List `executive_titles_clevel` (source line 290). -/
def executiveTitlesClevel : List String := ["cto", "cfo", "cio", "coo", "chief "]

/-- List `executive_titles_svp` (source line 291). -/
def executiveTitlesSvp : List String := ["senior vice president", "svp"]

/-- List `executive_titles_vp` (source line 292). -/
def executiveTitlesVp : List String := ["vice president", "vp"]

/-- One component of the sort key:
`not any(title in user.get('jobTitle','').lower() for title in titles)`. -/
def titleLacks (u : UserRecord) (titles : List String) : Bool :=
  !(titles.any fun t => containsSub (lowerStr u.jobTitle) t)

/-- The Python sort key tuple of `root_candidates.sort` (source lines
294-300), as an element of the lexicographic product: four booleans
(`False < True`, so candidates whose job title matches a tier sort first)
followed by the display name (Python compares strings by code points,
which is exactly the order of `String`'s `LinearOrder`). -/
def rootKey (u : UserRecord) : Bool ×ₗ Bool ×ₗ Bool ×ₗ Bool ×ₗ String :=
  toLex (titleLacks u executiveTitlesHighest,
    toLex (titleLacks u executiveTitlesClevel,
      toLex (titleLacks u executiveTitlesSvp,
        toLex (titleLacks u executiveTitlesVp, u.displayName))))

/-- Keep `a` unless `b`'s key is strictly smaller. -/
def pickMin (a b : UserRecord) : UserRecord :=
  if rootKey b < rootKey a then b else a

/-- Expression `root_candidates.sort(key=...)` followed by `root_user =
root_candidates[0]` (source lines 294-302).  Python's `list.sort` is
stable, so the head of the sorted list is the first element attaining the
minimal key; that is what this fold computes, since `pickMin` replaces
the current choice only on a strictly smaller key. -/
def selectRoot : List UserRecord → Option UserRecord
  | [] => none
  | u :: us => some (us.foldl pickMin u)

theorem foldl_pickMin_mem :
    ∀ (us : List UserRecord) (u : UserRecord),
      us.foldl pickMin u = u ∨ us.foldl pickMin u ∈ us := by
  intro us
  induction us with
  | nil => intro u; exact Or.inl rfl
  | cons v vs ih =>
    intro u
    rw [List.foldl_cons]
    rcases ih (pickMin u v) with h | h
    · rw [h]
      unfold pickMin
      by_cases hlt : rootKey v < rootKey u
      · rw [if_pos hlt]; exact Or.inr (List.mem_cons_self v vs)
      · rw [if_neg hlt]; exact Or.inl rfl
    · exact Or.inr (List.mem_cons_of_mem v h)

theorem foldl_pickMin_le :
    ∀ (us : List UserRecord) (u c : UserRecord), (c = u ∨ c ∈ us) →
      rootKey (us.foldl pickMin u) ≤ rootKey c := by
  intro us
  induction us with
  | nil =>
    intro u c hc
    rcases hc with rfl | hc
    · exact le_refl _
    · exact absurd hc (List.not_mem_nil c)
  | cons v vs ih =>
    intro u c hc
    rw [List.foldl_cons]
    have hle_u : rootKey (pickMin u v) ≤ rootKey u := by
      unfold pickMin
      by_cases hlt : rootKey v < rootKey u
      · rw [if_pos hlt]; exact le_of_lt hlt
      · rw [if_neg hlt]
    have hle_v : rootKey (pickMin u v) ≤ rootKey v := by
      unfold pickMin
      by_cases hlt : rootKey v < rootKey u
      · rw [if_pos hlt]
      · rw [if_neg hlt]; exact le_of_not_lt hlt
    have hstart : rootKey (vs.foldl pickMin (pickMin u v)) ≤
        rootKey (pickMin u v) := ih (pickMin u v) (pickMin u v) (Or.inl rfl)
    rcases hc with rfl | hc
    · exact le_trans hstart hle_u
    · rcases List.mem_cons.mp hc with rfl | hc'
      · exact le_trans hstart hle_v
      · exact ih (pickMin u v) c (Or.inr hc')

/-- C7. -- On a non-empty candidate list, automatic root selection
returns exactly one record, a member of the list whose sort key — the
four case-insensitive job-title tiers followed by the display name, in
lexicographic order — is minimal among all candidates; the selection is a
pure function of the candidate sequence, hence deterministic. -/
theorem c7_root_selection (l : List UserRecord) (hne : l ≠ []) :
    ∃ r, selectRoot l = some r ∧ r ∈ l ∧ ∀ c ∈ l, rootKey r ≤ rootKey c := by
  cases l with
  | nil => exact absurd rfl hne
  | cons u us =>
    refine ⟨us.foldl pickMin u, rfl, ?_, ?_⟩
    · rcases foldl_pickMin_mem us u with h | h
      · rw [h]; exact List.mem_cons_self u us
      · exact List.mem_cons_of_mem u h
    · intro c hc
      rcases List.mem_cons.mp hc with rfl | hc'
      · exact foldl_pickMin_le us c c (Or.inl rfl)
      · exact foldl_pickMin_le us u c (Or.inr hc')

/-- Witness for C7 on a two-candidate list: a VP and a CEO. -/
theorem c7_root_selection_witness :
    ∃ r, selectRoot [scenAUser2, scenAUser1] = some r ∧
      r ∈ [scenAUser2, scenAUser1] ∧
      ∀ c ∈ [scenAUser2, scenAUser1], rootKey r ≤ rootKey c :=
  c7_root_selection [scenAUser2, scenAUser1] (by simp)

/-- Function `find_user_by_email_in_list` (source lines 185-194): `None` on a
falsy email, else the first user whose lowercased mail or lowercased
principal name equals the lowercased target. -/
def findUserByEmailInList (email : String) (users : List UserRecord) :
    Option UserRecord :=
  if email = "" then none
  else users.find? fun u =>
    (lowerStr u.mail == lowerStr email) ||
      (lowerStr u.userPrincipalName == lowerStr email)

/-- The fatal error classes of the orchestration boundary that the claims
mention. -/
inductive RunError : Type where
  | rootNotFound (requested : String)
deriving DecidableEq

/-- The explicit-start path of `main` (source lines 276-281 and 314):
filter, look the start email up in the filtered list, abort with
`RootNotFound` when the lookup fails, otherwise build the tree from the
found user's id. -/
def runFromStartEmail (email : String) (users : List UserRecord)
    (fuel : Nat) : Except RunError (Option (Option HNode)) :=
  match findUserByEmailInList email (filterUsers users) with
  | none => Except.error (RunError.rootNotFound email)
  | some r =>
    Except.ok (buildLocalHierarchy fuel r.id (buildById (filterUsers users))
      (reportsByManager (filterUsers users)))

/-- C8. -- Explicit root selection returns a record of the searched list
whose mail or principal name matches the target case-insensitively; when
no record matches, no record of the list matches on either field, and the
run fails with `RootNotFound` carrying the requested identity (no tree is
built). -/
theorem c8_explicit_root (email : String) (users : List UserRecord) :
    (∀ r, findUserByEmailInList email users = some r →
      r ∈ users ∧ (lowerStr r.mail = lowerStr email ∨
        lowerStr r.userPrincipalName = lowerStr email)) ∧
    (findUserByEmailInList email users = none → ∀ r ∈ users,
      email ≠ "" → lowerStr r.mail ≠ lowerStr email ∧
        lowerStr r.userPrincipalName ≠ lowerStr email) ∧
    (∀ fuel, findUserByEmailInList email (filterUsers users) = none →
      runFromStartEmail email users fuel =
        Except.error (RunError.rootNotFound email)) := by
  refine ⟨?_, ?_, ?_⟩
  · intro r hr
    unfold findUserByEmailInList at hr
    by_cases he : email = ""
    · rw [if_pos he] at hr; exact absurd hr (by simp)
    · rw [if_neg he] at hr
      refine ⟨List.mem_of_find?_eq_some hr, ?_⟩
      have := List.find?_some hr
      rcases Bool.or_eq_true_iff.mp this with h | h
      · exact Or.inl (by simpa using h)
      · exact Or.inr (by simpa using h)
  · intro hnone r hr he
    unfold findUserByEmailInList at hnone
    rw [if_neg he] at hnone
    have := List.find?_eq_none.mp hnone r hr
    simp only [Bool.or_eq_true_iff, not_or] at this
    exact ⟨by simpa using this.1, by simpa using this.2⟩
  · intro fuel hnone
    unfold runFromStartEmail
    rw [hnone]

/-- Witness for C8: an identity matching no filtered record aborts with
`RootNotFound`. -/
theorem c8_explicit_root_witness :
    runFromStartEmail "zz@none" [scenAUser1] 1 =
      Except.error (RunError.rootNotFound "zz@none") :=
  (c8_explicit_root "zz@none" [scenAUser1]).2.2 1 (by decide)

theorem isPrefixOf_subset :
    ∀ (pat hay : List Char), pat.isPrefixOf hay = true → ∀ a ∈ pat, a ∈ hay := by
  intro pat
  induction pat with
  | nil => intro hay _ a ha; exact absurd ha (List.not_mem_nil a)
  | cons p ps ih =>
    intro hay hpre a ha
    cases hay with
    | nil => exact absurd hpre (by simp)
    | cons c t =>
      rw [List.isPrefixOf_cons₂, Bool.and_eq_true] at hpre
      have hpc : p = c := by simpa using hpre.1
      rcases List.mem_cons.mp ha with rfl | ha'
      · exact hpc ▸ List.mem_cons_self c t
      · exact List.mem_cons_of_mem c (ih t hpre.2 a ha')

theorem substrB_subset :
    ∀ (hay pat : List Char), substrB pat hay = true → ∀ a ∈ pat, a ∈ hay := by
  intro hay
  induction hay with
  | nil =>
    intro pat h a ha
    rw [substrB] at h
    cases pat with
    | nil => exact absurd ha (List.not_mem_nil a)
    | cons p ps => exact absurd h (by simp)
  | cons c t ih =>
    intro pat h a ha
    rw [substrB, Bool.or_eq_true_iff] at h
    rcases h with h | h
    · exact isPrefixOf_subset pat (c :: t) h a ha
    · exact List.mem_cons_of_mem c (ih pat h a ha)

theorem toLower_ne_upperE : ∀ c : Char, Char.toLower c ≠ 'E' := by
  intro c h
  rw [Char.toLower] at h
  by_cases hc : c.toNat ≥ 65 ∧ c.toNat ≤ 90
  · rw [if_pos hc] at h
    have hrange : ∀ n, 65 ≤ n → n ≤ 90 → Char.ofNat (n + 32) ≠ 'E' := by
      intro n h1 h2
      interval_cases n <;> decide
    exact hrange c.toNat hc.1 hc.2 h
  · rw [if_neg hc] at h
    subst h
    exact hc (by constructor <;> decide)

/-- C5. -- The `"#EXT#"` exclusion pattern can never match: the
principal name is lowercased before the substring test while the pattern
contains uppercase letters, so no lowercased string contains it; hence a
record whose principal name contains `#ext#` in any letter case is not
excluded by that pattern, and if its mail and job title are non-empty and
it triggers no other exclusion, it appears in the filtered output. -/
theorem c5_ext_pattern_never_matches :
    (∀ s : String, containsSub (lowerStr s) "#EXT#" = false) ∧
    ∀ (users : List UserRecord) (u : UserRecord), u ∈ users →
      containsSub (lowerStr u.userPrincipalName) "#ext#" = true →
      u.mail ≠ "" → u.jobTitle ≠ "" →
      (∀ p ∈ excludedPatterns, p ≠ "#EXT#" →
        containsSub (lowerStr u.userPrincipalName) p = false) →
      startsWithStr (lowerStr u.displayName) "adm" = false →
      u ∈ filterUsers users := by
  have hext : ∀ s : String, containsSub (lowerStr s) "#EXT#" = false := by
    intro s
    by_contra hx
    rw [Bool.not_eq_false] at hx
    unfold containsSub at hx
    have hmem : 'E' ∈ (lowerStr s).data :=
      substrB_subset (lowerStr s).data ("#EXT#".data) hx 'E' (by decide)
    have hmem' : 'E' ∈ s.data.map Char.toLower := hmem
    rcases List.mem_map.mp hmem' with ⟨c, _, hc⟩
    exact toLower_ne_upperE c hc
  refine ⟨hext, ?_⟩
  intro users u hu hcontains hmail hjob hothers hadm
  rw [filterUsers_eq_filter, List.mem_filter]
  refine ⟨hu, ?_⟩
  have hall : (excludedPatterns.any fun p =>
      containsSub (lowerStr u.userPrincipalName) p) = false := by
    rw [List.any_eq_false]
    intro p hp
    by_cases hpe : p = "#EXT#"
    · subst hpe
      simp [hext u.userPrincipalName]
    · simp [hothers p hp hpe]
  unfold keepSpec
  simp [hmail, hjob, hall, hadm]

/-- A record whose principal name carries the external marker in mixed
case, with otherwise clean fields. -/
def extUser : UserRecord :=
  ⟨"7", "Eve", "eve#ExT#x@corp", "e@x", "Engineer", "", none⟩

/-- Witness for C5: the mixed-case `#ExT#` record survives the filter. -/
theorem c5_ext_pattern_never_matches_witness :
    extUser ∈ filterUsers [extUser] :=
  c5_ext_pattern_never_matches.2 [extUser] extUser (by decide) (by decide)
    (by decide) (by decide) (by decide) (by decide)

end OrgHierarchy
